import Mathlib

/-!
Verification of the timestamp-pacing and chapter-synchronization layer of
HandBrake's libavcodec video encoder wrapper (`src/libhb/encavcodec.c`).

The embedding below is a shallow model of the state carried in
`hb_work_private_s` and of the functions `save_frame_info`,
`get_frame_start`, `get_frame_duration`, `compute_dts_offset`,
`process_delay_list`, the per-packet body of `get_packets`, the
frame-submission part of `Encode`, and the packet-draining part of `Flush`.
Machine `int64_t` timestamps are modelled by `Int` (the C code performs no
intentional wraparound on them), frame counters (`int frameno_in`,
`int frameno_out`, always non-negative counts) by `Nat`, and the
`frame_info[FRAME_INFO_SIZE]` ring by a function `Fin 32 → FrameInfo`.
A run of the subsystem is a fold over a list of events: frame submissions
(`Encode`) interleaved with packets drained from the encoder
(one iteration of the `get_packets` loop each).
-/

namespace EncAvcodec

/-- `#define FRAME_INFO_SIZE 32` (encavcodec.c line 27). -/
def FRAME_INFO_SIZE : Nat := 32

/-- ffmpeg's sentinel for an unset `int64_t` timestamp (`INT64_MIN`). -/
def AV_NOPTS_VALUE : Int := -(2 ^ 63)

/-- One slot of `pv->frame_info`: per-frame `{start, duration}`. -/
structure FrameInfo where
  start : Int
  duration : Int
deriving DecidableEq, Repr

/-- The timing/settings fields of an input frame buffer (`in->s`):
`start`, `stop`, and the `new_chap` chapter marker (0 = no marker). -/
structure Frame where
  start : Int
  stop : Int
  new_chap : Nat
deriving DecidableEq, Repr

/-- The timing/settings fields of an output packet buffer (`out->s`). -/
structure Buf where
  start : Int
  stop : Int
  duration : Int
  renderOffset : Int
  flagREF : Bool
  flagKEY : Bool
  new_chap : Nat
deriving DecidableEq, Repr

/-- The job-level configuration consumed by this core: `job->areBframes`
(the reorder depth), `job->chapter_markers`, and the value that
`hb_buffer_init` leaves in the not-yet-resolved timestamp fields of a fresh
buffer.  `hb_buffer_init` lives in `libhb/fifo.c`, outside the sources under
verification, so the sentinel is kept as an abstract parameter `unset`
(HandBrake uses `AV_NOPTS_VALUE`); no claim below depends on its value
except where that dependence is itself the point. -/
structure Cfg where
  areBframes : Nat
  chapter_markers : Bool
  unset : Int
deriving DecidableEq, Repr

/-- The relevant state of `hb_work_private_s` (encavcodec.c lines 30-48).
`chapter_queue` is the pending-chapter-mark FIFO (each entry records the
`new_chap` value of the frame that requested the chapter).
`init_delay` models `pv->job->config.init_delay`. -/
structure PV where
  frameno_in : Nat
  frameno_out : Nat
  delay_list : List Buf
  dts_delay : Int
  init_delay : Int
  frame_info : Fin 32 → FrameInfo
  chapter_queue : List Nat

/-- The state right after `encavcodecInit`: `calloc` zeroes every counter and
timestamp, `hb_buffer_list_clear` empties the delay list, and
`hb_chapter_queue_init` yields an empty FIFO. -/
def pv0 : PV :=
  { frameno_in := 0
    frameno_out := 0
    delay_list := []
    dts_delay := 0
    init_delay := 0
    frame_info := fun _ => ⟨0, 0⟩
    chapter_queue := [] }

/-- `frameno & FRAME_INFO_MASK` for an `int64_t` frame number.  On two's
complement machines the bitwise AND with `31` equals the non-negative
residue mod 32, which is `Int.emod` with a positive modulus. -/
def maskIdx (frameno : Int) : Fin 32 :=
  ⟨(frameno % 32).toNat, by
    have h1 : 0 ≤ frameno % 32 := Int.emod_nonneg _ (by norm_num)
    have h2 : frameno % 32 < 32 := Int.emod_lt_of_pos _ (by norm_num)
    omega⟩

/-- `frameno & FRAME_INFO_MASK` for the non-negative `int` counter
`frameno_in`. -/
def maskIdxN (n : Nat) : Fin 32 :=
  ⟨n % 32, Nat.mod_lt _ (by norm_num)⟩

/-- `save_frame_info` (lines 725-730): write `{start, stop - start}`
unconditionally into slot `frameno_in & FRAME_INFO_MASK`. -/
def save_frame_info (pv : PV) (inb : Frame) : PV :=
  { pv with
    frame_info := Function.update pv.frame_info (maskIdxN pv.frameno_in)
      (FrameInfo.mk inb.start (inb.stop - inb.start)) }

/-- `get_frame_start` (lines 732-736): unchecked read of slot
`frameno & FRAME_INFO_MASK`. -/
def get_frame_start (pv : PV) (frameno : Int) : Int :=
  (pv.frame_info (maskIdx frameno)).start

/-- `get_frame_duration` (lines 738-742): unchecked read of slot
`frameno & FRAME_INFO_MASK`. -/
def get_frame_duration (pv : PV) (frameno : Int) : Int :=
  (pv.frame_info (maskIdx frameno)).duration

/-- `compute_dts_offset` (lines 744-754): when `areBframes` is non-zero and
this is the frame with 0-indexed submission number `areBframes`
(`frameno_in` has not been incremented for it yet), capture
`dts_delay = buf->s.start` and publish it as `job->config.init_delay`. -/
def compute_dts_offset (areB : Nat) (pv : PV) (buf : Frame) : PV :=
  if areB ≠ 0 then
    if pv.frameno_in = areB then
      { pv with dts_delay := buf.start, init_delay := buf.start }
    else pv
  else pv

/-- The walk over the queued buffers in `process_delay_list`
(lines 780-798): the buffer at cumulative output index `k` gets
`renderOffset = get_frame_start(k) - dts_delay` while `k < areBframes`
and `renderOffset = get_frame_start(k - areBframes)` afterwards
(`k` is `pv->frameno_out`, incremented once per buffer). -/
def apply_delay (areB : Nat) (pv : PV) : Nat → List Buf → List Buf
  | _, [] => []
  | k, b :: rest =>
      { b with renderOffset :=
          if k < areB then get_frame_start pv (k : Int) - pv.dts_delay
          else get_frame_start pv ((k : Int) - (areB : Int)) } ::
        apply_delay areB pv (k + 1) rest

/-- `process_delay_list` (lines 766-808).  With `areBframes` non-zero the
fresh buffer is appended to `pv->delay_list`; while
`frameno_in <= areBframes` (i.e. `dts_delay` not yet set) nothing is
returned; otherwise the whole queue is walked (see `apply_delay`), cleared,
and returned.  With `areBframes == 0` the buffer passes straight through
with `renderOffset = start`.  The only call site (`get_packets`) always
passes a non-NULL buffer, so the trailing NULL case of the C function is
not reachable here.  The walk reads only `frame_info` and `dts_delay`,
which the append does not touch, so `pv` is passed to `apply_delay`
unchanged. -/
def process_delay_list (areB : Nat) (pv : PV) (buf : Buf) : PV × List Buf :=
  if areB ≠ 0 then
    if pv.frameno_in ≤ areB then
      ({ pv with delay_list := pv.delay_list ++ [buf] }, [])
    else
      ({ pv with delay_list := [],
                 frameno_out := pv.frameno_out + (pv.delay_list.length + 1) },
        apply_delay areB pv pv.frameno_out (pv.delay_list ++ [buf]))
  else
    (pv, [{ buf with renderOffset := buf.start }])

/-- Modelled from the spec: `hb_chapter_enqueue` (declared in
`libhb/common.h`, defined outside the sources under verification).
Spec §4.4: "On frame submission with a 'new chapter' marker set: push
`PendingChapterMark{seq}` onto the FIFO."  The mark records the frame's
chapter boundary (its `new_chap` value). -/
def hb_chapter_enqueue (q : List Nat) (f : Frame) : List Nat :=
  q ++ [f.new_chap]

/-- Modelled from the spec: `hb_chapter_dequeue` (declared in
`libhb/common.h`, defined outside the sources under verification).
Spec §4.4: "On packet resolution where `is_keyframe` is true: pop the
oldest pending mark (if any) and attach its chapter boundary to this
packet; if no mark is pending, the packet carries no chapter boundary." -/
def hb_chapter_dequeue (q : List Nat) (b : Buf) : List Nat × Buf :=
  match q with
  | [] => ([], b)
  | m :: rest => (rest, { b with new_chap := m })

/-- The packet constructed by one iteration of the `get_packets` loop
(lines 831-847) before chapter pairing: `start` and `duration` are resolved
from the registry via the echoed frame number (`pkt.pts`), line 838 sets
`out->s.stop = out->s.stop + out->s.duration` where `out->s.stop` still
holds the unset sentinel left by `hb_buffer_init`, flags default to
REFERENCE and additionally KEY when `pkt.flags & AV_PKT_FLAG_KEY`. -/
def mk_packet (cfg : Cfg) (pv : PV) (frameno : Int) (isKey : Bool) : Buf :=
  { start := get_frame_start pv frameno
    duration := get_frame_duration pv frameno
    stop := cfg.unset + get_frame_duration pv frameno
    renderOffset := cfg.unset
    flagREF := true
    flagKEY := isKey
    new_chap := 0 }

/-- Lines 831-849 of `get_packets`: build the resolved packet and, when the
encoder marked it as a keyframe, pair it with the oldest pending chapter
mark. -/
def tag_packet (cfg : Cfg) (pv : PV) (frameno : Int) (isKey : Bool) :
    PV × Buf :=
  if isKey then
    ({ pv with chapter_queue :=
         (hb_chapter_dequeue pv.chapter_queue (mk_packet cfg pv frameno true)).1 },
      (hb_chapter_dequeue pv.chapter_queue (mk_packet cfg pv frameno true)).2)
  else (pv, mk_packet cfg pv frameno false)

/-- One full iteration of the `get_packets` drain loop (lines 814-854):
resolve the drained packet and feed it through `process_delay_list`;
the returned buffers (zero or more) are appended to the caller-visible
output list. -/
def resolve_packet (cfg : Cfg) (pv : PV) (frameno : Int) (isKey : Bool) :
    PV × List Buf :=
  process_delay_list cfg.areBframes
    (tag_packet cfg pv frameno isKey).1
    (tag_packet cfg pv frameno isKey).2

/-- The chapter branch of `Encode` (lines 873-883): with a `new_chap`
marker and `job->chapter_markers` enabled, request an IDR keyframe
(`frame.pict_type = AV_PICTURE_TYPE_I; frame.key_frame = 1`, reported here
as the returned Bool) and enqueue a pending chapter mark. -/
def chapter_step (cfg : Cfg) (pv : PV) (f : Frame) : PV × Bool :=
  if 0 < f.new_chap ∧ cfg.chapter_markers then
    ({ pv with chapter_queue := hb_chapter_enqueue pv.chapter_queue f }, true)
  else (pv, false)

/-- The frame-submission part of `Encode` (lines 857-906): chapter branch,
`save_frame_info`, `compute_dts_offset`, then `frame.pts = pv->frameno_in++`
(the encoder echoes that sequence number back as `pkt.pts`).  The Bool
reports whether an IDR keyframe was requested from the encoder. -/
def Encode_submit (cfg : Cfg) (pv : PV) (f : Frame) : PV × Bool :=
  ({ compute_dts_offset cfg.areBframes
       (save_frame_info (chapter_step cfg pv f).1 f) f with
     frameno_in :=
       (compute_dts_offset cfg.areBframes
         (save_frame_info (chapter_step cfg pv f).1 f) f).frameno_in + 1 },
    (chapter_step cfg pv f).2)

/-- An observable event of the subsystem: a frame submitted through
`Encode`, or one packet drained from the encoder inside the `get_packets`
loop (the encoder echoes `frameno = pkt.pts` and reports the keyframe
flag). -/
inductive Ev where
  | submit (f : Frame)
  | emit (frameno : Int) (isKey : Bool)
deriving DecidableEq, Repr

/-- One event applied to the pair (private state, caller-visible output
sequence so far). -/
def step (cfg : Cfg) (s : PV × List Buf) : Ev → PV × List Buf
  | .submit f => ((Encode_submit cfg s.1 f).1, s.2)
  | .emit frameno isKey =>
      ((resolve_packet cfg s.1 frameno isKey).1,
        s.2 ++ (resolve_packet cfg s.1 frameno isKey).2)

/-- A whole run of the subsystem from the freshly initialized state. -/
def run (cfg : Cfg) (evs : List Ev) : PV × List Buf :=
  evs.foldl (step cfg) (pv0, [])

/-- `Flush` (lines 926-941): at end of stream the encoder is signalled with
`avcodec_send_frame(NULL)` and then drained through the very same
`get_packets` loop; `pkts` lists the packets the encoder returns while
draining.  No other code path touches `pv->delay_list`, and
`encavcodecWork` only appends an EOF marker afterwards. -/
def Flush_model (cfg : Cfg) (s : PV × List Buf) (pkts : List (Int × Bool)) :
    PV × List Buf :=
  (pkts.map (fun p => Ev.emit p.1 p.2)).foldl (step cfg) s

/-- Number of `submit` events: the final value of `frameno_in`. -/
def numSubmits : List Ev → Nat
  | [] => 0
  | .submit _ :: rest => numSubmits rest + 1
  | .emit _ _ :: rest => numSubmits rest

/-- Number of `emit` events: how many packets the encoder produced. -/
def numEmits : List Ev → Nat
  | [] => 0
  | .submit _ :: rest => numEmits rest
  | .emit _ _ :: rest => numEmits rest + 1

/-- The submitted frames, in submission order. -/
def subs : List Ev → List Frame
  | [] => []
  | .submit f :: rest => f :: subs rest
  | .emit _ _ :: rest => subs rest

end EncAvcodec

namespace EncAvcodec

/-! ### Basic lemmas about the embedding -/

theorem maskIdx_natCast (n : Nat) : maskIdx (n : Int) = maskIdxN n := by
  apply Fin.ext
  simp only [maskIdx, maskIdxN]
  omega

theorem maskIdxN_ne_of_window {m F : Nat} (hlt : m < F) (hwin : F ≤ m + 31) :
    maskIdxN m ≠ maskIdxN F := by
  intro h
  have h32 : m % 32 = F % 32 := Fin.val_eq_val (maskIdxN m) (maskIdxN F) |>.mpr h
  omega

theorem get_frame_start_delay (pv : PV) (l : List Buf) (q : Int) :
    get_frame_start { pv with delay_list := l } q = get_frame_start pv q := rfl

theorem step_submit (cfg : Cfg) (s : PV × List Buf) (f : Frame) :
    step cfg s (.submit f) = ((Encode_submit cfg s.1 f).1, s.2) := rfl

theorem step_emit (cfg : Cfg) (s : PV × List Buf) (q : Int) (k : Bool) :
    step cfg s (.emit q k) =
      ((resolve_packet cfg s.1 q k).1,
        s.2 ++ (resolve_packet cfg s.1 q k).2) := rfl

theorem tag_packet_fields (cfg : Cfg) (pv : PV) (q : Int) (k : Bool) :
    (tag_packet cfg pv q k).1.frameno_in = pv.frameno_in ∧
    (tag_packet cfg pv q k).1.frameno_out = pv.frameno_out ∧
    (tag_packet cfg pv q k).1.delay_list = pv.delay_list ∧
    (tag_packet cfg pv q k).1.dts_delay = pv.dts_delay ∧
    (tag_packet cfg pv q k).1.frame_info = pv.frame_info := by
  unfold tag_packet
  cases k <;> simp

theorem tag_packet_start (cfg : Cfg) (pv : PV) (q : Int) (k : Bool) :
    (tag_packet cfg pv q k).2.start = get_frame_start pv q := by
  unfold tag_packet hb_chapter_dequeue mk_packet
  cases k <;> cases pv.chapter_queue <;> simp

theorem apply_delay_length (areB : Nat) (pv : PV) (k0 : Nat) (l : List Buf) :
    (apply_delay areB pv k0 l).length = l.length := by
  induction l generalizing k0 with
  | nil => rfl
  | cons b rest ih => simp [apply_delay, ih]

theorem apply_delay_get (areB : Nat) (pv : PV) (k0 : Nat) (l : List Buf)
    (i : Nat) (hi : i < l.length)
    (hi2 : i < (apply_delay areB pv k0 l).length) :
    (apply_delay areB pv k0 l).get ⟨i, hi2⟩ =
      { l.get ⟨i, hi⟩ with renderOffset :=
          if k0 + i < areB then
            get_frame_start pv ((k0 + i : Nat) : Int) - pv.dts_delay
          else get_frame_start pv (((k0 + i : Nat) : Int) - (areB : Int)) } := by
  induction l generalizing k0 i with
  | nil => exact absurd hi (by simp)
  | cons b rest ih =>
      cases i with
      | zero => simp [apply_delay]
      | succ j =>
          have hj : j < rest.length := by simpa using hi
          have hj2 : j < (apply_delay areB pv (k0 + 1) rest).length := by
            rw [apply_delay_length]; exact hj
          have := ih (k0 + 1) j hj hj2
          simp only [apply_delay, List.get_cons_succ]
          rw [this]
          have harith : k0 + 1 + j = k0 + (j + 1) := by omega
          rw [harith]

theorem foldl_frameno_in (cfg : Cfg) (evs : List Ev) :
    ∀ s : PV × List Buf,
      (evs.foldl (step cfg) s).1.frameno_in = s.1.frameno_in + numSubmits evs := by
  induction evs with
  | nil => intro s; simp [numSubmits]
  | cons e rest ih =>
      intro s
      cases e with
      | submit f =>
          rw [List.foldl_cons, ih, step_submit]
          simp only [numSubmits]
          have : (Encode_submit cfg s.1 f).1.frameno_in = s.1.frameno_in + 1 := by
            unfold Encode_submit save_frame_info compute_dts_offset chapter_step
            by_cases h1 : 0 < f.new_chap ∧ cfg.chapter_markers <;>
              by_cases h2 : cfg.areBframes ≠ 0 <;> simp [h1, h2] <;> split <;> simp
          rw [this]; omega
      | emit q k =>
          rw [List.foldl_cons, ih, step_emit]
          simp only [numSubmits]
          have ht := (tag_packet_fields cfg s.1 q k).1
          unfold resolve_packet process_delay_list
          split <;> [skip; simp [ht]]
          split <;> simp [ht]

end EncAvcodec

namespace EncAvcodec

/-! ### C10: the Frame Info Registry is an unchecked mod-32 ring -/

/-- The claim-C10 witness state: 32 frames already submitted
(`frameno_in = 32`), so the next `save_frame_info` reuses slot 0. -/
def pvC10 : PV := { pv0 with frameno_in := 32 }

/-- The frame whose submission overwrites slot 0 in the C10 scenario. -/
def fC10 : Frame := ⟨42, 52, 0⟩

/-- C10: Registry lookups are total for every 64-bit sequence number:
`lookup_start(seq)` and `lookup_duration(seq)` always return the contents
of slot `seq mod 32` without any existence check or error path, so a lookup
for a sequence number 32 submissions in the past silently returns the
timing of the newer frame that overwrote that slot rather than failing. -/
theorem C10_registry_total_aliasing (pv : PV) (f : Frame) (seq : Int)
    (h0 : 0 ≤ seq) (hover : pv.frameno_in = seq.toNat + 32) :
    (∀ q : Int, get_frame_start pv q = (pv.frame_info (maskIdx q)).start ∧
        get_frame_duration pv q = (pv.frame_info (maskIdx q)).duration) ∧
    get_frame_start (save_frame_info pv f) seq = f.start ∧
    get_frame_duration (save_frame_info pv f) seq = f.stop - f.start := by
  have hidx : maskIdx seq = maskIdxN pv.frameno_in := by
    have h1 : maskIdx ((seq.toNat : Nat) : Int) = maskIdxN seq.toNat :=
      maskIdx_natCast seq.toNat
    rw [Int.toNat_of_nonneg h0] at h1
    rw [h1, hover]
    apply Fin.ext
    simp only [maskIdxN]
    omega
  refine ⟨fun q => ⟨rfl, rfl⟩, ?_, ?_⟩ <;>
    simp [save_frame_info, get_frame_start, get_frame_duration, hidx]

theorem C10_witness :
    ((0 : Int) ≤ 0 ∧ pvC10.frameno_in = (0 : Int).toNat + 32) ∧
    get_frame_start pvC10 5 = (pvC10.frame_info (maskIdx 5)).start ∧
    get_frame_start (save_frame_info pvC10 fC10) 0 = 42 ∧
    get_frame_duration (save_frame_info pvC10 fC10) 0 = 10 := by
  have h := C10_registry_total_aliasing pvC10 fC10 0 (by decide) (by decide)
  exact ⟨⟨by decide, by decide⟩, (h.1 5).1,
    by rw [h.2.1]; decide, by rw [h.2.2]; decide⟩

/-! ### C2: the stop timestamp of a drained packet -/

/-- Line 838 verbatim: the freshly drained packet's `stop` is computed from
the *unset sentinel* that `hb_buffer_init` left in `out->s.stop`, plus the
resolved duration — the resolved `start` (assigned on line 836) is not used
at all.  This holds for every configuration, state and packet. -/
theorem mk_packet_stop (cfg : Cfg) (pv : PV) (frameno : Int) (isKey : Bool) :
    (mk_packet cfg pv frameno isKey).stop =
      cfg.unset + (mk_packet cfg pv frameno isKey).duration := rfl

/-- Configuration for the C2 failing input: no reordering, and
`hb_buffer_init`'s actual sentinel `AV_NOPTS_VALUE`. -/
def cfgC2 : Cfg := ⟨0, false, AV_NOPTS_VALUE⟩

/-- The C2 failing input: one frame `{start = 5, stop = 15}` submitted and
its packet drained. -/
def evsC2 : List Ev := [Ev.submit ⟨5, 15, 0⟩, Ev.emit 0 true]

/-- C2: the claim `stop = start + duration` fails on the code.  On the
failing input the released packet has
`stop = AV_NOPTS_VALUE + 10 ≠ 5 + 10`, because line 838 reads
`out->s.stop` (never assigned, still the `hb_buffer_init` sentinel)
instead of `out->s.start`. -/
theorem C2_stop_bug :
    ((run cfgC2 evsC2).2.all fun b => decide (b.stop = b.start + b.duration))
      = false := by decide

/-! ### C9: the job-level chapter_markers gate in Encode -/

/-- C9: submitting a chapter-marked frame enqueues a pending mark and
requests an IDR keyframe only when `job->chapter_markers` is enabled; with
it disabled the pending-mark queue is unchanged and no keyframe is forced,
while the registry, `dts_delay`, the delay buffer and both frame counters
are updated identically. -/
theorem C9_chapter_markers_gate (cfg : Cfg) (pv : PV) (f : Frame)
    (hch : 0 < f.new_chap) :
    (Encode_submit { cfg with chapter_markers := false } pv f).2 = false ∧
    (Encode_submit { cfg with chapter_markers := false } pv f).1.chapter_queue
      = pv.chapter_queue ∧
    (Encode_submit { cfg with chapter_markers := true } pv f).2 = true ∧
    (Encode_submit { cfg with chapter_markers := true } pv f).1.chapter_queue
      = pv.chapter_queue ++ [f.new_chap] ∧
    (Encode_submit { cfg with chapter_markers := false } pv f).1.frame_info
      = (Encode_submit { cfg with chapter_markers := true } pv f).1.frame_info ∧
    (Encode_submit { cfg with chapter_markers := false } pv f).1.dts_delay
      = (Encode_submit { cfg with chapter_markers := true } pv f).1.dts_delay ∧
    (Encode_submit { cfg with chapter_markers := false } pv f).1.delay_list
      = (Encode_submit { cfg with chapter_markers := true } pv f).1.delay_list ∧
    (Encode_submit { cfg with chapter_markers := false } pv f).1.frameno_in
      = (Encode_submit { cfg with chapter_markers := true } pv f).1.frameno_in ∧
    (Encode_submit { cfg with chapter_markers := false } pv f).1.frameno_out
      = (Encode_submit { cfg with chapter_markers := true } pv f).1.frameno_out := by
  unfold Encode_submit chapter_step compute_dts_offset save_frame_info
  simp only [hch, true_and]
  by_cases hB : cfg.areBframes ≠ 0 <;>
    by_cases hFn : pv.frameno_in = cfg.areBframes <;>
      simp [hB, hFn, hb_chapter_enqueue]

/-- The chapter-marked frame used in the C9 witness. -/
def fC9 : Frame := ⟨0, 10, 3⟩

theorem C9_witness :
    0 < fC9.new_chap ∧
    (Encode_submit ⟨2, false, AV_NOPTS_VALUE⟩ pv0 fC9).2 = false ∧
    (Encode_submit ⟨2, false, AV_NOPTS_VALUE⟩ pv0 fC9).1.chapter_queue = [] ∧
    (Encode_submit ⟨2, true, AV_NOPTS_VALUE⟩ pv0 fC9).1.chapter_queue = [3] ∧
    (Encode_submit ⟨2, false, AV_NOPTS_VALUE⟩ pv0 fC9).1.dts_delay
      = (Encode_submit ⟨2, true, AV_NOPTS_VALUE⟩ pv0 fC9).1.dts_delay := by
  have h := C9_chapter_markers_gate ⟨2, true, AV_NOPTS_VALUE⟩ pv0 fC9 (by decide)
  exact ⟨by decide, h.1, by rw [h.2.1]; rfl, h.2.2.2.1, h.2.2.2.2.2.1⟩

end EncAvcodec

namespace EncAvcodec

/-! ### C8: FIFO pairing of chapter marks with keyframes -/

/-- C8: with chapter markers enabled, submitting a frame carrying a
new-chapter marker appends exactly one pending mark to the FIFO; resolving
a packet whose keyframe flag is set pops the oldest pending mark (the FIFO
head) and attaches its chapter boundary to that packet; packets without
the keyframe flag never consume a mark; and a keyframe packet resolved
with no mark pending carries no chapter boundary. -/
theorem C8_chapter_fifo (cfg : Cfg) (pv : PV) (f : Frame) (seq : Int)
    (hcm : cfg.chapter_markers = true) (hch : 0 < f.new_chap) :
    (Encode_submit cfg pv f).1.chapter_queue
      = pv.chapter_queue ++ [f.new_chap] ∧
    ((tag_packet cfg pv seq false).1.chapter_queue = pv.chapter_queue ∧
      (tag_packet cfg pv seq false).2.new_chap = 0) ∧
    (pv.chapter_queue = [] →
      (tag_packet cfg pv seq true).1.chapter_queue = [] ∧
      (tag_packet cfg pv seq true).2.new_chap = 0) ∧
    ∀ m rest, pv.chapter_queue = m :: rest →
      (tag_packet cfg pv seq true).1.chapter_queue = rest ∧
      (tag_packet cfg pv seq true).2.new_chap = m := by
  refine ⟨?_, ?_, ?_, ?_⟩
  · unfold Encode_submit chapter_step compute_dts_offset save_frame_info
    simp only [hcm, hch, and_self, if_true]
    by_cases hB : cfg.areBframes ≠ 0 <;>
      by_cases hFn : pv.frameno_in = cfg.areBframes <;>
        simp [hB, hFn, hb_chapter_enqueue]
  · simp [tag_packet, mk_packet]
  · intro hq
    simp [tag_packet, hb_chapter_dequeue, hq, mk_packet]
  · intro m rest hq
    simp [tag_packet, hb_chapter_dequeue, hq, mk_packet]

/-- Witness state for C8: one mark (chapter 7) already pending. -/
def pvC8 : PV := { pv0 with chapter_queue := [7] }

theorem C8_witness :
    ((⟨0, true, AV_NOPTS_VALUE⟩ : Cfg).chapter_markers = true ∧
      0 < (⟨0, 10, 3⟩ : Frame).new_chap ∧ pvC8.chapter_queue = 7 :: []) ∧
    (Encode_submit ⟨0, true, AV_NOPTS_VALUE⟩ pvC8 ⟨0, 10, 3⟩).1.chapter_queue
      = [7, 3] ∧
    (tag_packet ⟨0, true, AV_NOPTS_VALUE⟩ pvC8 0 false).2.new_chap = 0 ∧
    (tag_packet ⟨0, true, AV_NOPTS_VALUE⟩ pvC8 0 true).1.chapter_queue = [] ∧
    (tag_packet ⟨0, true, AV_NOPTS_VALUE⟩ pvC8 0 true).2.new_chap = 7 := by
  have h := C8_chapter_fifo ⟨0, true, AV_NOPTS_VALUE⟩ pvC8 ⟨0, 10, 3⟩ 0
    rfl (by decide)
  have h4 := h.2.2.2 7 [] rfl
  exact ⟨⟨rfl, by decide, rfl⟩, by rw [h.1]; rfl, h.2.1.2, h4.1, h4.2⟩

end EncAvcodec

namespace EncAvcodec

/-! ### Field-preservation lemmas for the two step functions -/

theorem Encode_submit_frameno_in (cfg : Cfg) (pv : PV) (f : Frame) :
    (Encode_submit cfg pv f).1.frameno_in = pv.frameno_in + 1 := by
  unfold Encode_submit chapter_step compute_dts_offset save_frame_info
  by_cases h1 : 0 < f.new_chap ∧ cfg.chapter_markers <;>
    by_cases h2 : cfg.areBframes ≠ 0 <;> simp [h1, h2] <;> split <;> simp

theorem Encode_submit_dts (cfg : Cfg) (pv : PV) (f : Frame)
    (hd : cfg.areBframes ≠ 0) :
    (Encode_submit cfg pv f).1.dts_delay =
      if pv.frameno_in = cfg.areBframes then f.start else pv.dts_delay := by
  unfold Encode_submit chapter_step compute_dts_offset save_frame_info
  by_cases h1 : 0 < f.new_chap ∧ cfg.chapter_markers <;>
    by_cases h2 : pv.frameno_in = cfg.areBframes <;> simp [h1, h2, hd]

theorem Encode_submit_delay_list (cfg : Cfg) (pv : PV) (f : Frame) :
    (Encode_submit cfg pv f).1.delay_list = pv.delay_list ∧
    (Encode_submit cfg pv f).1.frameno_out = pv.frameno_out := by
  unfold Encode_submit chapter_step compute_dts_offset save_frame_info
  by_cases h1 : 0 < f.new_chap ∧ cfg.chapter_markers <;>
    by_cases h2 : cfg.areBframes ≠ 0 <;> simp [h1, h2] <;> split <;> simp

theorem resolve_packet_fixed (cfg : Cfg) (pv : PV) (q : Int) (k : Bool) :
    (resolve_packet cfg pv q k).1.frameno_in = pv.frameno_in ∧
    (resolve_packet cfg pv q k).1.dts_delay = pv.dts_delay ∧
    (resolve_packet cfg pv q k).1.frame_info = pv.frame_info := by
  obtain ⟨h1, h2, h3, h4, h5⟩ := tag_packet_fields cfg pv q k
  unfold resolve_packet process_delay_list
  split
  · split <;> simp [h1, h4, h5]
  · simp [h1, h4, h5]

/-! ### C5: the renderOffset formula applied at release -/

/-- C5: when `reorder_depth = d ≠ 0` and `dts_delay` is known
(`d < frameno_in`), releasing through `process_delay_list` returns every
queued packet plus the fresh one; the packet at position `i` of the release
run, whose cumulative output index is `k = frameno_out + i`, receives
`renderOffset = lookup_start(k) - dts_delay` when `k < d` and
`renderOffset = lookup_start(k - d)` when `k ≥ d`, where `lookup_start`
reads the Frame Info Registry; `frameno_out` advances by the number of
released packets, so the same formula applies to every later packet by its
cumulative output index. -/
theorem C5_release_formula (d : Nat) (pv : PV) (buf : Buf)
    (hd : d ≠ 0) (hrel : d < pv.frameno_in) :
    (process_delay_list d pv buf).2.length = pv.delay_list.length + 1 ∧
    (process_delay_list d pv buf).1.frameno_out
      = pv.frameno_out + (pv.delay_list.length + 1) ∧
    ∀ i (hi : i < (process_delay_list d pv buf).2.length),
      ((process_delay_list d pv buf).2.get ⟨i, hi⟩).renderOffset =
        if pv.frameno_out + i < d then
          get_frame_start pv ((pv.frameno_out + i : Nat) : Int) - pv.dts_delay
        else
          get_frame_start pv (((pv.frameno_out + i : Nat) : Int) - (d : Int)) := by
  have hn : ¬ pv.frameno_in ≤ d := by omega
  unfold process_delay_list
  rw [if_pos hd, if_neg hn]
  refine ⟨by simp [apply_delay_length], rfl, ?_⟩
  intro i hi
  have hi1 : i < (pv.delay_list ++ [buf]).length := by
    have := apply_delay_length d pv pv.frameno_out (pv.delay_list ++ [buf])
    simp only at hi
    omega
  rw [apply_delay_get d pv pv.frameno_out (pv.delay_list ++ [buf]) i hi1 hi]

/-- A queued buffer for the C5 witness. -/
def bufA : Buf :=
  { start := 100, stop := 110, duration := 10, renderOffset := 0,
    flagREF := true, flagKEY := false, new_chap := 0 }

/-- Witness state for C5: depth 1, two frames submitted
(starts 0 and 7, so `dts_delay = 7`), one packet queued. -/
def pvC5 : PV :=
  { pv0 with
    frameno_in := 2
    dts_delay := 7
    delay_list := [bufA]
    frame_info := Function.update
      (Function.update pv0.frame_info (maskIdxN 0) ⟨0, 10⟩)
      (maskIdxN 1) ⟨7, 10⟩ }

theorem C5_witness :
    ((1 : Nat) ≠ 0 ∧ 1 < pvC5.frameno_in) ∧
    (process_delay_list 1 pvC5 bufA).2.length = 2 ∧
    (process_delay_list 1 pvC5 bufA).1.frameno_out = 2 ∧
    ((process_delay_list 1 pvC5 bufA).2.map fun b => b.renderOffset)
      = [-7, 0] := by
  have h := C5_release_formula 1 pvC5 bufA (by decide) (by decide)
  refine ⟨⟨by decide, by decide⟩, ?_, ?_, ?_⟩
  · rw [h.1]; decide
  · rw [h.2.1]; decide
  · have h0 := h.2.2 0 (by rw [h.1]; decide)
    have h1 := h.2.2 1 (by rw [h.1]; decide)
    decide

end EncAvcodec

namespace EncAvcodec

/-! ### C4: dts_delay is captured exactly once -/

/-- The default frame used with `List.getD`. -/
def frame0 : Frame := ⟨0, 0, 0⟩

theorem foldl_dts (cfg : Cfg) (hd : cfg.areBframes ≠ 0) (evs : List Ev) :
    ∀ s : PV × List Buf,
      (evs.foldl (step cfg) s).1.dts_delay =
        if s.1.frameno_in ≤ cfg.areBframes ∧
            cfg.areBframes < s.1.frameno_in + numSubmits evs then
          ((subs evs).getD (cfg.areBframes - s.1.frameno_in) frame0).start
        else s.1.dts_delay := by
  induction evs with
  | nil =>
      intro s
      rw [List.foldl_nil, if_neg]
      simp only [numSubmits]
      omega
  | cons e rest ih =>
      intro s
      cases e with
      | submit f =>
          rw [List.foldl_cons, step_submit, ih]
          rw [Encode_submit_frameno_in cfg s.1 f, Encode_submit_dts cfg s.1 f hd]
          simp only [numSubmits, subs]
          by_cases hB : s.1.frameno_in = cfg.areBframes
          · rw [if_pos hB,
              if_neg (show ¬(s.1.frameno_in + 1 ≤ cfg.areBframes ∧
                cfg.areBframes < s.1.frameno_in + 1 + numSubmits rest) from by omega),
              if_pos (show s.1.frameno_in ≤ cfg.areBframes ∧
                cfg.areBframes < s.1.frameno_in + (numSubmits rest + 1) from by omega),
              hB, Nat.sub_self, List.getD_cons_zero]
          · rw [if_neg hB]
            by_cases hA : s.1.frameno_in + 1 ≤ cfg.areBframes ∧
                cfg.areBframes < s.1.frameno_in + 1 + numSubmits rest
            · rw [if_pos hA,
                if_pos (show s.1.frameno_in ≤ cfg.areBframes ∧
                  cfg.areBframes < s.1.frameno_in + (numSubmits rest + 1) from by omega)]
              have harith : cfg.areBframes - s.1.frameno_in =
                  (cfg.areBframes - (s.1.frameno_in + 1)) + 1 := by omega
              rw [harith, List.getD_cons_succ]
            · rw [if_neg hA,
                if_neg (show ¬(s.1.frameno_in ≤ cfg.areBframes ∧
                  cfg.areBframes < s.1.frameno_in + (numSubmits rest + 1)) from by omega)]
      | emit q k =>
          rw [List.foldl_cons, step_emit, ih]
          rw [(resolve_packet_fixed cfg s.1 q k).1,
            (resolve_packet_fixed cfg s.1 q k).2.1]
          simp only [numSubmits, subs]

/-- C4: with `reorder_depth ≠ 0`, `dts_delay` is assigned exactly once per
stream: after any run it equals the start timestamp of the frame submitted
at 0-indexed position `reorder_depth` whenever that frame has been
submitted (and is still the zero-initialized value otherwise), and once
that frame has been submitted no operation on any later frame or packet
ever changes it. -/
theorem C4_dts_once (cfg : Cfg) (evs : List Ev) (hd : cfg.areBframes ≠ 0) :
    ((run cfg evs).1.dts_delay =
      if cfg.areBframes < numSubmits evs then
        ((subs evs).getD cfg.areBframes frame0).start
      else 0) ∧
    ∀ rest, cfg.areBframes < numSubmits evs →
      (run cfg (evs ++ rest)).1.dts_delay = (run cfg evs).1.dts_delay := by
  constructor
  · have h := foldl_dts cfg hd evs (pv0, [])
    rw [run, h]
    by_cases hc : cfg.areBframes < numSubmits evs
    · rw [if_pos (show pv0.frameno_in ≤ cfg.areBframes ∧
          cfg.areBframes < pv0.frameno_in + numSubmits evs from
            by simp only [pv0]; omega), if_pos hc]
      simp [pv0]
    · rw [if_neg (show ¬(pv0.frameno_in ≤ cfg.areBframes ∧
          cfg.areBframes < pv0.frameno_in + numSubmits evs) from
            by simp only [pv0]; omega), if_neg hc]
      rfl
  · intro rest hc
    rw [run, List.foldl_append]
    have hF : (evs.foldl (step cfg) (pv0, [])).1.frameno_in
        = numSubmits evs := by
      simpa [pv0] using foldl_frameno_in cfg evs (pv0, [])
    rw [foldl_dts cfg hd rest (evs.foldl (step cfg) (pv0, [])), if_neg]
    · rfl
    · rw [hF]; omega

/-- Events for the C4 witness: depth 1, frames with starts 3 and 11, then a
drained packet; `dts_delay` must be frame 1's start, i.e. 11. -/
def evsC4 : List Ev :=
  [Ev.submit ⟨3, 9, 0⟩, Ev.submit ⟨11, 17, 0⟩, Ev.emit 0 true]

theorem C4_witness :
    ((⟨1, false, AV_NOPTS_VALUE⟩ : Cfg).areBframes ≠ 0 ∧
      (⟨1, false, AV_NOPTS_VALUE⟩ : Cfg).areBframes < numSubmits evsC4) ∧
    (run ⟨1, false, AV_NOPTS_VALUE⟩ evsC4).1.dts_delay = 11 ∧
    (run ⟨1, false, AV_NOPTS_VALUE⟩
        (evsC4 ++ [Ev.submit ⟨20, 26, 0⟩])).1.dts_delay
      = (run ⟨1, false, AV_NOPTS_VALUE⟩ evsC4).1.dts_delay := by
  have h := C4_dts_once ⟨1, false, AV_NOPTS_VALUE⟩ evsC4 (by decide)
  refine ⟨⟨by decide, by decide⟩, ?_, ?_⟩
  · rw [h.1]; decide
  · exact h.2 [Ev.submit ⟨20, 26, 0⟩] (by decide)

end EncAvcodec

namespace EncAvcodec

/-! ### Structural behavior of one emit, by phase -/

theorem resolve_packet_hold (cfg : Cfg) (pv : PV) (q : Int) (k : Bool)
    (hd : cfg.areBframes ≠ 0) (hle : pv.frameno_in ≤ cfg.areBframes) :
    (resolve_packet cfg pv q k).1.delay_list
      = pv.delay_list ++ [(tag_packet cfg pv q k).2] ∧
    (resolve_packet cfg pv q k).2 = [] ∧
    (resolve_packet cfg pv q k).1.frameno_out = pv.frameno_out := by
  obtain ⟨h1, h2, h3, h4, h5⟩ := tag_packet_fields cfg pv q k
  unfold resolve_packet process_delay_list
  rw [if_pos hd, if_pos (by rw [h1]; exact hle)]
  simp [h2, h3]

theorem resolve_packet_release (cfg : Cfg) (pv : PV) (q : Int) (k : Bool)
    (hd : cfg.areBframes ≠ 0) (hgt : cfg.areBframes < pv.frameno_in) :
    (resolve_packet cfg pv q k).1.delay_list = [] ∧
    (resolve_packet cfg pv q k).2.length = pv.delay_list.length + 1 ∧
    (resolve_packet cfg pv q k).1.frameno_out
      = pv.frameno_out + (pv.delay_list.length + 1) := by
  obtain ⟨h1, h2, h3, h4, h5⟩ := tag_packet_fields cfg pv q k
  unfold resolve_packet process_delay_list
  rw [if_pos hd, if_neg (by rw [h1]; omega)]
  simp [h2, h3, apply_delay_length]

theorem resolve_packet_zero (cfg : Cfg) (pv : PV) (q : Int) (k : Bool)
    (h0 : cfg.areBframes = 0) :
    (resolve_packet cfg pv q k).1.delay_list = pv.delay_list ∧
    (resolve_packet cfg pv q k).1.frameno_out = pv.frameno_out ∧
    (resolve_packet cfg pv q k).2
      = [{ (tag_packet cfg pv q k).2 with
            renderOffset := (tag_packet cfg pv q k).2.start }] := by
  obtain ⟨h1, h2, h3, h4, h5⟩ := tag_packet_fields cfg pv q k
  unfold resolve_packet process_delay_list
  rw [if_neg (by rw [h0]; simp)]
  simp [h2, h3]

/-! ### Event counting -/

theorem numSubmits_append (a b : List Ev) :
    numSubmits (a ++ b) = numSubmits a + numSubmits b := by
  induction a with
  | nil => simp [numSubmits]
  | cons e rest ih =>
      cases e with
      | submit f =>
          rw [List.cons_append,
            show numSubmits (Ev.submit f :: (rest ++ b))
              = numSubmits (rest ++ b) + 1 from rfl, ih,
            show numSubmits (Ev.submit f :: rest)
              = numSubmits rest + 1 from rfl]
          omega
      | emit q k =>
          rw [List.cons_append,
            show numSubmits (Ev.emit q k :: (rest ++ b))
              = numSubmits (rest ++ b) from rfl, ih,
            show numSubmits (Ev.emit q k :: rest)
              = numSubmits rest from rfl]

theorem numEmits_append (a b : List Ev) :
    numEmits (a ++ b) = numEmits a + numEmits b := by
  induction a with
  | nil => simp [numEmits]
  | cons e rest ih =>
      cases e with
      | submit f =>
          rw [List.cons_append,
            show numEmits (Ev.submit f :: (rest ++ b))
              = numEmits (rest ++ b) from rfl, ih,
            show numEmits (Ev.submit f :: rest)
              = numEmits rest from rfl]
      | emit q k =>
          rw [List.cons_append,
            show numEmits (Ev.emit q k :: (rest ++ b))
              = numEmits (rest ++ b) + 1 from rfl, ih,
            show numEmits (Ev.emit q k :: rest)
              = numEmits rest + 1 from rfl]
          omega

theorem numEmits_map_emit (pkts : List (Int × Bool)) :
    numEmits (pkts.map fun p => Ev.emit p.1 p.2) = pkts.length := by
  induction pkts with
  | nil => rfl
  | cons p rest ih => simp [numEmits, ih]

theorem numSubmits_map_emit (pkts : List (Int × Bool)) :
    numSubmits (pkts.map fun p => Ev.emit p.1 p.2) = 0 := by
  induction pkts with
  | nil => rfl
  | cons p rest ih => simp [numSubmits, ih]

/-! ### The held phase: nothing is released while frameno_in ≤ depth -/

theorem foldl_hold (cfg : Cfg) (hd : cfg.areBframes ≠ 0) (evs : List Ev) :
    ∀ s : PV × List Buf,
      s.1.frameno_in + numSubmits evs ≤ cfg.areBframes →
      (evs.foldl (step cfg) s).2 = s.2 ∧
      (evs.foldl (step cfg) s).1.delay_list.length
        = s.1.delay_list.length + numEmits evs := by
  induction evs with
  | nil => intro s _; simp [numEmits]
  | cons e rest ih =>
      intro s hle
      cases e with
      | submit f =>
          simp only [numSubmits] at hle
          rw [List.foldl_cons, step_submit]
          have hF := Encode_submit_frameno_in cfg s.1 f
          have hDL := (Encode_submit_delay_list cfg s.1 f).1
          have hrec := ih ((Encode_submit cfg s.1 f).1, s.2)
            (by dsimp only; rw [hF]; omega)
          dsimp only at hrec
          refine ⟨hrec.1, ?_⟩
          rw [hrec.2, hDL]
          simp only [numEmits]
      | emit q k =>
          simp only [numSubmits] at hle
          rw [List.foldl_cons, step_emit]
          have hhold := resolve_packet_hold cfg s.1 q k hd (by omega)
          have hfix := resolve_packet_fixed cfg s.1 q k
          rw [hhold.2.1, List.append_nil]
          have hrec := ih ((resolve_packet cfg s.1 q k).1, s.2)
            (by dsimp only; rw [hfix.1]; omega)
          dsimp only at hrec
          refine ⟨hrec.1, ?_⟩
          rw [hrec.2, hhold.1]
          simp only [numEmits, List.length_append, List.length_cons,
            List.length_nil]
          omega

/-! ### Depth zero: immediate passthrough, delay queue untouched -/

theorem foldl_zero (cfg : Cfg) (h0 : cfg.areBframes = 0) (evs : List Ev) :
    ∀ s : PV × List Buf,
      (evs.foldl (step cfg) s).1.delay_list = s.1.delay_list ∧
      (evs.foldl (step cfg) s).1.frameno_out = s.1.frameno_out ∧
      (evs.foldl (step cfg) s).2.length = s.2.length + numEmits evs ∧
      ∀ b ∈ (evs.foldl (step cfg) s).2,
        b ∈ s.2 ∨ b.renderOffset = b.start := by
  induction evs with
  | nil =>
      intro s
      refine ⟨rfl, rfl, by simp [numEmits], fun b hb => Or.inl hb⟩
  | cons e rest ih =>
      intro s
      cases e with
      | submit f =>
          rw [List.foldl_cons, step_submit]
          have hDL := Encode_submit_delay_list cfg s.1 f
          have hrec := ih ((Encode_submit cfg s.1 f).1, s.2)
          dsimp only at hrec
          exact ⟨by rw [hrec.1, hDL.1], by rw [hrec.2.1, hDL.2],
            by rw [hrec.2.2.1]; simp only [numEmits], hrec.2.2.2⟩
      | emit q k =>
          rw [List.foldl_cons, step_emit]
          have hz := resolve_packet_zero cfg s.1 q k h0
          have hrec := ih ((resolve_packet cfg s.1 q k).1,
            s.2 ++ (resolve_packet cfg s.1 q k).2)
          dsimp only at hrec
          refine ⟨by rw [hrec.1, hz.1], by rw [hrec.2.1, hz.2.1], ?_, ?_⟩
          · rw [hrec.2.2.1, hz.2.2]
            simp only [numEmits, List.length_append, List.length_cons,
              List.length_nil]
            omega
          · intro b hb
            rcases hrec.2.2.2 b hb with hmem | hro
            · rw [hz.2.2] at hmem
              rcases List.mem_append.mp hmem with h | h
              · exact Or.inl h
              · right
                have hb2 : b = { (tag_packet cfg s.1 q k).2 with
                    renderOffset := (tag_packet cfg s.1 q k).2.start } := by
                  simpa using h
                rw [hb2]
            · exact Or.inr hro

/-! ### Conservation: every drained packet is held or released, never both -/

theorem foldl_conservation (cfg : Cfg) (evs : List Ev) :
    ∀ s : PV × List Buf,
      (evs.foldl (step cfg) s).2.length
          + (evs.foldl (step cfg) s).1.delay_list.length
        = s.2.length + s.1.delay_list.length + numEmits evs := by
  induction evs with
  | nil => intro s; simp [numEmits]
  | cons e rest ih =>
      intro s
      cases e with
      | submit f =>
          rw [List.foldl_cons, step_submit]
          have hDL := (Encode_submit_delay_list cfg s.1 f).1
          have hrec := ih ((Encode_submit cfg s.1 f).1, s.2)
          dsimp only at hrec
          rw [hrec, hDL]
          simp only [numEmits]
      | emit q k =>
          rw [List.foldl_cons, step_emit]
          have hrec := ih ((resolve_packet cfg s.1 q k).1,
            s.2 ++ (resolve_packet cfg s.1 q k).2)
          dsimp only at hrec
          rw [hrec]
          simp only [numEmits, List.length_append]
          by_cases h0 : cfg.areBframes = 0
          · have hz := resolve_packet_zero cfg s.1 q k h0
            rw [hz.1, hz.2.2]
            simp only [List.length_cons, List.length_nil]
            omega
          · by_cases hle : s.1.frameno_in ≤ cfg.areBframes
            · have hh := resolve_packet_hold cfg s.1 q k h0 hle
              rw [hh.1, hh.2.1]
              simp only [List.length_append, List.length_cons,
                List.length_nil]
              omega
            · have hr := resolve_packet_release cfg s.1 q k h0 (by omega)
              rw [hr.1, hr.2.1]
              simp only [List.length_nil]
              omega

/-! ### Draining: once the depth is exceeded, every emit empties the queue -/

theorem foldl_drain_empty (cfg : Cfg) (hd : cfg.areBframes ≠ 0)
    (pkts : List (Int × Bool)) :
    ∀ s : PV × List Buf,
      cfg.areBframes < s.1.frameno_in → pkts ≠ [] →
      ((pkts.map fun p => Ev.emit p.1 p.2).foldl (step cfg) s).1.delay_list
        = [] := by
  induction pkts with
  | nil => intro s _ hne; exact absurd rfl hne
  | cons p rest ih =>
      intro s hgt _
      have hr := resolve_packet_release cfg s.1 p.1 p.2 hd hgt
      have hfix := resolve_packet_fixed cfg s.1 p.1 p.2
      rw [List.map_cons, List.foldl_cons, step_emit]
      by_cases hrest : rest = []
      · subst hrest
        simpa using hr.1
      · exact ih ((resolve_packet cfg s.1 p.1 p.2).1, _)
          (by dsimp only; rw [hfix.1]; exact hgt) hrest

end EncAvcodec

namespace EncAvcodec

/-! ### C6: with depth d > 0 nothing is released before frame d is submitted -/

/-- C6: with `reorder_depth = d ≠ 0`, while fewer than `d + 1` frames have
been submitted (`numSubmits evs ≤ d`), no packet is ever released to the
caller, and every packet drained from the encoder has been appended to the
internal delay buffer. -/
theorem C6_no_release_before_depth (cfg : Cfg) (evs : List Ev)
    (hd : cfg.areBframes ≠ 0) (hfew : numSubmits evs ≤ cfg.areBframes) :
    (run cfg evs).2 = [] ∧
    (run cfg evs).1.delay_list.length = numEmits evs := by
  have h := foldl_hold cfg hd evs (pv0, [])
    (by simp only [pv0]; omega)
  rw [run]
  exact ⟨h.1, by rw [h.2]; simp [pv0]⟩

/-- Events for the C6 witness: depth 2, two frames submitted, two packets
drained; both must be held, nothing released. -/
def evsC6 : List Ev :=
  [Ev.submit ⟨0, 10, 0⟩, Ev.emit 0 true, Ev.submit ⟨10, 20, 0⟩,
   Ev.emit 1 false]

theorem C6_witness :
    ((⟨2, false, AV_NOPTS_VALUE⟩ : Cfg).areBframes ≠ 0 ∧
      numSubmits evsC6 ≤ (⟨2, false, AV_NOPTS_VALUE⟩ : Cfg).areBframes) ∧
    (run ⟨2, false, AV_NOPTS_VALUE⟩ evsC6).2 = [] ∧
    (run ⟨2, false, AV_NOPTS_VALUE⟩ evsC6).1.delay_list.length
      = numEmits evsC6 := by
  exact ⟨⟨by decide, by decide⟩,
    C6_no_release_before_depth ⟨2, false, AV_NOPTS_VALUE⟩ evsC6
      (by decide) (by decide)⟩

/-! ### C7: depth 0 is an immediate passthrough -/

/-- C7: with `reorder_depth = 0` every resolved packet is released
immediately with `renderOffset` equal to its own `start`, the delay buffer
is never used (`delay_list` stays empty and `frameno_out` is never
advanced), exactly one packet is released per drained packet, and one more
emit appends exactly its own resolved packet at the end of the output
sequence — so output order is the encoder's emission order. -/
theorem C7_zero_depth_passthrough (cfg : Cfg) (evs : List Ev)
    (h0 : cfg.areBframes = 0) :
    (run cfg evs).1.delay_list = [] ∧
    (run cfg evs).1.frameno_out = 0 ∧
    (run cfg evs).2.length = numEmits evs ∧
    (∀ b ∈ (run cfg evs).2, b.renderOffset = b.start) ∧
    ∀ q k, (step cfg (run cfg evs) (Ev.emit q k)).2
      = (run cfg evs).2 ++
        [{ (tag_packet cfg (run cfg evs).1 q k).2 with
            renderOffset := (tag_packet cfg (run cfg evs).1 q k).2.start }] := by
  have h := foldl_zero cfg h0 evs (pv0, [])
  dsimp only at h
  rw [run]
  refine ⟨by rw [h.1]; rfl, by rw [h.2.1]; rfl,
    by rw [h.2.2.1]; simp [pv0], ?_, ?_⟩
  · intro b hb
    rcases h.2.2.2 b hb with hmem | hro
    · exact absurd hmem (List.not_mem_nil b)
    · exact hro
  · intro q k
    rw [step_emit]
    rw [(resolve_packet_zero cfg (evs.foldl (step cfg) (pv0, [])).1
      q k h0).2.2]

/-- Events for the C7 witness: depth 0, two frames each followed by its
packet. -/
def evsC7 : List Ev :=
  [Ev.submit ⟨0, 10, 0⟩, Ev.emit 0 true, Ev.submit ⟨10, 20, 0⟩,
   Ev.emit 1 false]

theorem C7_witness :
    ((⟨0, false, AV_NOPTS_VALUE⟩ : Cfg).areBframes = 0) ∧
    (run ⟨0, false, AV_NOPTS_VALUE⟩ evsC7).1.delay_list = [] ∧
    (run ⟨0, false, AV_NOPTS_VALUE⟩ evsC7).2.length = numEmits evsC7 ∧
    ((run ⟨0, false, AV_NOPTS_VALUE⟩ evsC7).2.all
      fun b => decide (b.renderOffset = b.start)) = true := by
  have h := C7_zero_depth_passthrough ⟨0, false, AV_NOPTS_VALUE⟩ evsC7 rfl
  refine ⟨rfl, h.1, h.2.2.1, ?_⟩
  exact List.all_eq_true.mpr fun b hb => decide_eq_true (h.2.2.2.1 b hb)

/-! ### C3: what flush actually releases -/

/-- Configuration for the C3 counterexample: reorder depth 2. -/
def cfgC3 : Cfg := ⟨2, false, AV_NOPTS_VALUE⟩

/-- C3 counterexample: one frame is submitted before end of stream
(fewer than `reorder_depth = 2`), the flush drains the encoder's single
packet — yet nothing at all is released to the caller and the packet stays
in the delay buffer forever.  The claim promised exactly one released
packet per submitted frame. -/
theorem C3_counterexample :
    (Flush_model cfgC3 (run cfgC3 [Ev.submit ⟨0, 100, 0⟩]) [(0, true)]).2.length
      = 0 ∧
    (Flush_model cfgC3 (run cfgC3 [Ev.submit ⟨0, 100, 0⟩])
      [(0, true)]).1.delay_list.length = 1 := by decide

/-- C3 (amended): the flush path fully drains the delay buffer only when
more than `reorder_depth` frames were submitted before end of stream: in
that case, after flushing at least one packet, the delay buffer is empty
and the caller has received exactly one packet per packet the encoder ever
emitted.  When at most `reorder_depth` frames were submitted, flush
releases nothing: every drained packet (pre-flush and flush alike) remains
in the delay buffer, silently dropped — the code derives no effective
delay from the frames actually submitted. -/
theorem C3_flush_amended (cfg : Cfg) (evs : List Ev)
    (pkts : List (Int × Bool)) (hd : cfg.areBframes ≠ 0) :
    (numSubmits evs ≤ cfg.areBframes →
      (Flush_model cfg (run cfg evs) pkts).2 = [] ∧
      (Flush_model cfg (run cfg evs) pkts).1.delay_list.length
        = numEmits evs + pkts.length) ∧
    (cfg.areBframes < numSubmits evs → pkts ≠ [] →
      (Flush_model cfg (run cfg evs) pkts).1.delay_list = [] ∧
      (Flush_model cfg (run cfg evs) pkts).2.length
        = numEmits evs + pkts.length) := by
  have hflush : Flush_model cfg (run cfg evs) pkts
      = run cfg (evs ++ pkts.map fun p => Ev.emit p.1 p.2) := by
    rw [Flush_model, run, run, List.foldl_append]
  constructor
  · intro hfew
    rw [hflush]
    have h := foldl_hold cfg hd (evs ++ pkts.map fun p => Ev.emit p.1 p.2)
      (pv0, [])
      (by
        simp only [pv0, numSubmits_append, numSubmits_map_emit]
        omega)
    rw [run]
    refine ⟨h.1, ?_⟩
    rw [h.2]
    simp [pv0, numEmits_append, numEmits_map_emit]
  · intro hmany hne
    have hF : (run cfg evs).1.frameno_in = numSubmits evs := by
      simpa [run, pv0] using foldl_frameno_in cfg evs (pv0, [])
    have hempty := foldl_drain_empty cfg hd pkts (run cfg evs)
      (by rw [hF]; omega) hne
    have hcons := foldl_conservation cfg
      (evs ++ pkts.map fun p => Ev.emit p.1 p.2) (pv0, [])
    dsimp only at hcons
    have hempty2 : (List.foldl (step cfg) (pv0, [])
        (evs ++ pkts.map fun p => Ev.emit p.1 p.2)).1.delay_list = [] := by
      rw [List.foldl_append]
      exact hempty
    refine ⟨hempty, ?_⟩
    rw [hempty2] at hcons
    simp only [List.length_nil, add_zero] at hcons
    rw [hflush, run, hcons]
    simp [pv0, numEmits_append, numEmits_map_emit]

/-- Events for the C3 witness: depth 1, two frames submitted before flush. -/
def evsC3w : List Ev := [Ev.submit ⟨0, 10, 0⟩, Ev.submit ⟨10, 20, 0⟩]

theorem C3_witness :
    ((⟨1, false, AV_NOPTS_VALUE⟩ : Cfg).areBframes ≠ 0 ∧
      (⟨1, false, AV_NOPTS_VALUE⟩ : Cfg).areBframes < numSubmits evsC3w ∧
      ([((0 : Int), false), ((1 : Int), false)] : List (Int × Bool)) ≠ []) ∧
    (Flush_model ⟨1, false, AV_NOPTS_VALUE⟩
        (run ⟨1, false, AV_NOPTS_VALUE⟩ evsC3w)
        [(0, false), (1, false)]).1.delay_list = [] ∧
    (Flush_model ⟨1, false, AV_NOPTS_VALUE⟩
        (run ⟨1, false, AV_NOPTS_VALUE⟩ evsC3w)
        [(0, false), (1, false)]).2.length = 2 := by
  have h := (C3_flush_amended ⟨1, false, AV_NOPTS_VALUE⟩ evsC3w
    [(0, false), (1, false)] (by decide)).2 (by decide) (by decide)
  exact ⟨⟨by decide, by decide, by decide⟩, h.1, by rw [h.2]; decide⟩

end EncAvcodec

namespace EncAvcodec

/-! ### C1: DTS less-or-equal PTS for released packets -/

/-- Validity of an encoder interaction trace for reorder depth `d` over
the frame sequence `fs` (the counters `F`, `E` are the submits and emits
already consumed).  A submit supplies the next frame of `fs` and happens
with at most `d` frames outstanding in the encoder; an emitted packet
echoes the sequence number of an already-submitted frame that is at most
`d` positions before the packet's emission index, and the encoder never
emits more packets than it received frames. -/
def ValidFrom (d : Nat) (fs : Nat → Frame) : Nat → Nat → List Ev → Prop
  | _, _, [] => True
  | F, E, Ev.submit f :: rest =>
      f = fs F ∧ F ≤ E + d ∧ ValidFrom d fs (F + 1) E rest
  | F, E, Ev.emit seq _ :: rest =>
      E < F ∧ (E : Int) ≤ seq + d ∧ 0 ≤ seq ∧ seq < (F : Int) ∧
        ValidFrom d fs F (E + 1) rest

/-- The inductive invariant of a depth-`d` run (`d ≠ 0`): the registry
slots of the last 32 submissions are accurate, `dts_delay` is frame `d`'s
start once known, the delay queue holds exactly the emitted-but-unreleased
packets (all of them while `frameno_in ≤ d`, none after a release), each
held packet's `start` is the start of a frame at most `d` positions before
its emission index, and every released packet satisfies
`renderOffset ≤ start`. -/
structure Inv (d : Nat) (fs : Nat → Frame) (F E : Nat) (pv : PV)
    (outs : List Buf) : Prop where
  hF : pv.frameno_in = F
  ring : ∀ m : Nat, m < F → F ≤ m + 32 →
    pv.frame_info (maskIdxN m) = ⟨(fs m).start, (fs m).stop - (fs m).start⟩
  dts : d < F → pv.dts_delay = (fs d).start
  hFE : F ≤ E + d + 1
  foE : pv.frameno_out ≤ E
  EfoD : E ≤ pv.frameno_out + d
  len : pv.delay_list.length = E - pv.frameno_out
  hold0 : F ≤ d → pv.frameno_out = 0
  drained : pv.frameno_out ≠ 0 → pv.delay_list = []
  held : ∀ (j : Nat) (b : Buf), pv.delay_list[j]? = some b →
    ∃ q : Nat, q < F ∧ pv.frameno_out + j ≤ q + d ∧ b.start = (fs q).start
  outsOK : ∀ b ∈ outs, b.renderOffset ≤ b.start

theorem Inv_init (d : Nat) (fs : Nat → Frame) : Inv d fs 0 0 pv0 [] := by
  refine ⟨rfl, ?_, ?_, by omega, by simp [pv0], by simp [pv0],
    by simp [pv0], fun _ => rfl, by simp [pv0], ?_, by simp⟩
  · intro m hm _; omega
  · intro hcon; omega
  · intro j b hb; simp [pv0] at hb

theorem mono_le {fs : Nat → Frame}
    (hmono : ∀ i j, i < j → (fs i).start < (fs j).start) :
    ∀ i j, i ≤ j → (fs i).start ≤ (fs j).start := by
  intro i j hij
  rcases Nat.lt_or_ge i j with hlt | hge
  · exact le_of_lt (hmono i j hlt)
  · have heq : i = j := by omega
    rw [heq]

theorem start_nonneg {fs : Nat → Frame}
    (hmono : ∀ i j, i < j → (fs i).start < (fs j).start)
    (hnn : 0 ≤ (fs 0).start) : ∀ q, 0 ≤ (fs q).start := by
  intro q
  exact le_trans hnn (mono_le hmono 0 q (Nat.zero_le q))

theorem Inv.read {d : Nat} {fs : Nat → Frame} {F E : Nat} {pv : PV}
    {outs : List Buf} (h : Inv d fs F E pv outs) (m : Nat)
    (h1 : m < F) (h2 : F ≤ m + 32) :
    get_frame_start pv ((m : Nat) : Int) = (fs m).start := by
  rw [get_frame_start, maskIdx_natCast, h.ring m h1 h2]

theorem Inv.readInt {d : Nat} {fs : Nat → Frame} {F E : Nat} {pv : PV}
    {outs : List Buf} (h : Inv d fs F E pv outs) (seq : Int)
    (h0 : 0 ≤ seq) (h1 : seq.toNat < F) (h2 : F ≤ seq.toNat + 32) :
    get_frame_start pv seq = (fs seq.toNat).start := by
  have hcast : maskIdx seq = maskIdxN seq.toNat := by
    have h3 := maskIdx_natCast seq.toNat
    rwa [Int.toNat_of_nonneg h0] at h3
  rw [get_frame_start, hcast, h.ring seq.toNat h1 h2]

theorem Encode_submit_frame_info (cfg : Cfg) (pv : PV) (f : Frame) :
    (Encode_submit cfg pv f).1.frame_info
      = Function.update pv.frame_info (maskIdxN pv.frameno_in)
          (FrameInfo.mk f.start (f.stop - f.start)) := by
  unfold Encode_submit chapter_step compute_dts_offset save_frame_info
  by_cases h1 : 0 < f.new_chap ∧ cfg.chapter_markers <;>
    by_cases h2 : cfg.areBframes ≠ 0 <;> simp [h1, h2] <;> split <;> simp

theorem Inv_submit (cfg : Cfg) (fs : Nat → Frame) (F E : Nat) (pv : PV)
    (outs : List Buf) (f : Frame) (hd0 : cfg.areBframes ≠ 0)
    (hf : f = fs F) (hsub : F ≤ E + cfg.areBframes)
    (h : Inv cfg.areBframes fs F E pv outs) :
    Inv cfg.areBframes fs (F + 1) E (Encode_submit cfg pv f).1 outs := by
  have hFi := Encode_submit_frameno_in cfg pv f
  have hfi := Encode_submit_frame_info cfg pv f
  have hdts := Encode_submit_dts cfg pv f hd0
  have hdl := Encode_submit_delay_list cfg pv f
  refine ⟨by rw [hFi, h.hF], ?_, ?_, by omega,
    by rw [hdl.2]; exact le_trans h.foE (by omega),
    by rw [hdl.2]; exact h.EfoD, by rw [hdl.1, hdl.2]; exact h.len,
    ?_, by rw [hdl.2, hdl.1]; exact h.drained, ?_, h.outsOK⟩
  · intro m hm hw
    rw [hfi, h.hF]
    rcases Nat.lt_or_ge m F with hmF | hmF
    · rw [Function.update_noteq (maskIdxN_ne_of_window hmF (by omega))]
      exact h.ring m hmF (by omega)
    · have hmeq : m = F := by omega
      subst hmeq
      rw [Function.update_same, hf]
  · intro hdF
    rw [hdts, h.hF]
    by_cases hFd : F = cfg.areBframes
    · rw [if_pos hFd, hf, hFd]
    · rw [if_neg hFd]
      exact h.dts (by omega)
  · intro hle
    rw [hdl.2]
    exact h.hold0 (by omega)
  · intro j b hb
    rw [hdl.1] at hb
    obtain ⟨q, hq1, hq2, hq3⟩ := h.held j b hb
    exact ⟨q, by omega, by rw [hdl.2]; exact hq2, hq3⟩

theorem apply_delay_getElem (areB : Nat) (pv : PV) (k0 : Nat) (l : List Buf)
    (i : Nat) :
    (apply_delay areB pv k0 l)[i]? = l[i]?.map fun b =>
      { b with renderOffset :=
          if k0 + i < areB then
            get_frame_start pv ((k0 + i : Nat) : Int) - pv.dts_delay
          else get_frame_start pv (((k0 + i : Nat) : Int) - (areB : Int)) } := by
  induction l generalizing k0 i with
  | nil => simp [apply_delay]
  | cons b rest ih =>
      cases i with
      | zero => simp [apply_delay]
      | succ j =>
          have harith : k0 + 1 + j = k0 + (j + 1) := by omega
          simp only [apply_delay, List.getElem?_cons_succ, ih (k0 + 1) j,
            harith]

theorem apply_delay_congr (areB : Nat) (pv pv2 : PV)
    (hfi : pv2.frame_info = pv.frame_info)
    (hdts : pv2.dts_delay = pv.dts_delay) :
    ∀ (k0 : Nat) (l : List Buf),
      apply_delay areB pv2 k0 l = apply_delay areB pv k0 l := by
  intro k0 l
  induction l generalizing k0 with
  | nil => rfl
  | cons b rest ih =>
      simp [apply_delay, ih, get_frame_start, hfi, hdts]

theorem resolve_packet_release_full (cfg : Cfg) (pv : PV) (seq : Int)
    (key : Bool) (hd : cfg.areBframes ≠ 0)
    (hgt : cfg.areBframes < pv.frameno_in) :
    (resolve_packet cfg pv seq key).1.delay_list = [] ∧
    (resolve_packet cfg pv seq key).1.frameno_out
      = pv.frameno_out + (pv.delay_list.length + 1) ∧
    (resolve_packet cfg pv seq key).2
      = apply_delay cfg.areBframes pv pv.frameno_out
          (pv.delay_list ++ [(tag_packet cfg pv seq key).2]) := by
  obtain ⟨h1, h2, h3, h4, h5⟩ := tag_packet_fields cfg pv seq key
  unfold resolve_packet process_delay_list
  rw [if_pos hd, if_neg (by rw [h1]; omega)]
  refine ⟨rfl, by dsimp only; rw [h2, h3], ?_⟩
  dsimp only
  rw [h2, h3, apply_delay_congr cfg.areBframes pv
    (tag_packet cfg pv seq key).1 h5 h4]

theorem Inv_emit (cfg : Cfg) (fs : Nat → Frame) (F E : Nat) (pv : PV)
    (outs : List Buf) (seq : Int) (key : Bool)
    (hd0 : cfg.areBframes ≠ 0) (hd15 : cfg.areBframes ≤ 15)
    (hmono : ∀ i j, i < j → (fs i).start < (fs j).start)
    (hnn : 0 ≤ (fs 0).start)
    (hEF : E < F) (hEseq : (E : Int) ≤ seq + (cfg.areBframes : Int))
    (hseq0 : 0 ≤ seq) (hseqF : seq < (F : Int))
    (h : Inv cfg.areBframes fs F E pv outs) :
    Inv cfg.areBframes fs F (E + 1) (resolve_packet cfg pv seq key).1
      (outs ++ (resolve_packet cfg pv seq key).2) := by
  obtain ⟨hx1, hx2, hx3⟩ := resolve_packet_fixed cfg pv seq key
  have hqF : seq.toNat < F := by omega
  have hEq : E ≤ seq.toNat + cfg.areBframes := by omega
  have hFE := h.hFE
  have hFq32 : F ≤ seq.toNat + 32 := by omega
  have hstart : (tag_packet cfg pv seq key).2.start
      = (fs seq.toNat).start := by
    rw [tag_packet_start]
    exact h.readInt seq hseq0 hqF hFq32
  by_cases hrel : F ≤ cfg.areBframes
  · -- hold: the fresh packet joins the queue, nothing is released
    obtain ⟨hh1, hh2, hh3⟩ := resolve_packet_hold cfg pv seq key hd0
      (by rw [h.hF]; exact hrel)
    have hfo0 : pv.frameno_out = 0 := h.hold0 hrel
    have hlenE : pv.delay_list.length = E := by rw [h.len, hfo0]; omega
    refine ⟨by rw [hx1, h.hF], ?_, ?_, by omega, ?_, ?_, ?_, ?_, ?_, ?_, ?_⟩
    · intro m hm hw; rw [hx3]; exact h.ring m hm hw
    · intro hdF; rw [hx2]; exact h.dts hdF
    · rw [hh3]; omega
    · rw [hh3, hfo0]; omega
    · rw [hh1, hh3, List.length_append, hlenE, hfo0]
      simp only [List.length_cons, List.length_nil]
      omega
    · intro _; rw [hh3]; exact hfo0
    · intro hne; rw [hh3] at hne; exact absurd hfo0 hne
    · intro j b hb
      rw [hh1] at hb
      by_cases hjl : j < pv.delay_list.length
      · rw [List.getElem?_append, if_pos hjl] at hb
        obtain ⟨q, hq1, hq2, hq3⟩ := h.held j b hb
        exact ⟨q, hq1, by rw [hh3]; exact hq2, hq3⟩
      · rcases Nat.lt_or_ge j (pv.delay_list.length + 1) with hj | hj
        · have hjeq : j = pv.delay_list.length := by omega
          subst hjeq
          rw [List.getElem?_concat_length] at hb
          obtain rfl : (tag_packet cfg pv seq key).2 = b :=
            Option.some.inj hb
          refine ⟨seq.toNat, hqF, ?_, hstart⟩
          rw [hh3, hfo0, hlenE]
          omega
        · rw [List.getElem?_eq_none (by simp; omega)] at hb
          exact absurd hb (by simp)
    · intro b hb
      rw [hh2, List.append_nil] at hb
      exact h.outsOK b hb
  · -- release: the whole queue is walked, re-timed, and emitted
    push_neg at hrel
    obtain ⟨hr1, hr2, hr3⟩ := resolve_packet_release_full cfg pv seq key hd0
      (by rw [h.hF]; omega)
    have hfoE : pv.frameno_out + pv.delay_list.length = E := by
      have hl := h.len
      have hf := h.foE
      omega
    have hwin : (pv.frameno_out = 0 ∧ E ≤ cfg.areBframes) ∨
        (pv.delay_list.length = 0 ∧ pv.frameno_out = E) := by
      by_cases hfo : pv.frameno_out = 0
      · left
        refine ⟨hfo, ?_⟩
        have hE := h.EfoD
        omega
      · right
        have hdl := h.drained hfo
        have hlen0 : pv.delay_list.length = 0 := by rw [hdl]; rfl
        exact ⟨hlen0, by omega⟩
    have hsrc : ∀ (i : Nat) (b : Buf),
        (pv.delay_list ++ [(tag_packet cfg pv seq key).2])[i]? = some b →
        ∃ q : Nat, q < F ∧ pv.frameno_out + i ≤ q + cfg.areBframes ∧
          b.start = (fs q).start := by
      intro i b hb
      by_cases hil : i < pv.delay_list.length
      · rw [List.getElem?_append, if_pos hil] at hb
        exact h.held i b hb
      · rcases Nat.lt_or_ge i (pv.delay_list.length + 1) with hi | hi
        · have hieq : i = pv.delay_list.length := by omega
          subst hieq
          rw [List.getElem?_concat_length] at hb
          obtain rfl : (tag_packet cfg pv seq key).2 = b :=
            Option.some.inj hb
          refine ⟨seq.toNat, hqF, ?_, hstart⟩
          omega
        · rw [List.getElem?_eq_none (by simp; omega)] at hb
          exact absurd hb (by simp)
    refine ⟨by rw [hx1, h.hF], ?_, ?_, by omega, ?_, ?_, ?_, ?_, ?_, ?_, ?_⟩
    · intro m hm hw; rw [hx3]; exact h.ring m hm hw
    · intro hdF; rw [hx2]; exact h.dts hdF
    · rw [hr2]; omega
    · rw [hr2]; omega
    · rw [hr1, hr2]; simp only [List.length_nil]; omega
    · intro hle; omega
    · intro _; exact hr1
    · intro j b hb
      rw [hr1] at hb
      exact absurd hb (by simp)
    · intro b hb
      rcases List.mem_append.mp hb with hbo | hbw
      · exact h.outsOK b hbo
      · rw [hr3] at hbw
        obtain ⟨i, hi⟩ := List.mem_iff_getElem?.mp hbw
        rw [apply_delay_getElem] at hi
        obtain ⟨sb, hsb, hbdef⟩ := Option.map_eq_some'.mp hi
        obtain ⟨q, hq1, hq2, hq3⟩ := hsrc i sb hsb
        have hilen : i < pv.delay_list.length + 1 := by
          obtain ⟨hl, -⟩ := List.getElem?_eq_some.mp hsb
          simpa using hl
        have hkE : pv.frameno_out + i ≤ E := by omega
        rw [← hbdef]
        simp only
        rw [hq3]
        have hq0 : 0 ≤ (fs q).start := start_nonneg hmono hnn q
        by_cases hkd : pv.frameno_out + i < cfg.areBframes
        · rw [if_pos hkd]
          have hFk : F ≤ pv.frameno_out + i + 32 := by
            rcases hwin with ⟨hfo, hEd⟩ | ⟨hl0, hfoE2⟩
            · omega
            · omega
          rw [h.read (pv.frameno_out + i) (by omega) hFk]
          rw [h.dts (by omega)]
          have hlt := hmono (pv.frameno_out + i) cfg.areBframes hkd
          omega
        · rw [if_neg hkd]
          push_neg at hkd
          rw [← Nat.cast_sub hkd]
          have hFk2 : F ≤ (pv.frameno_out + i - cfg.areBframes) + 32 := by
            rcases hwin with ⟨hfo, hEd⟩ | ⟨hl0, hfoE2⟩
            · omega
            · omega
          rw [h.read (pv.frameno_out + i - cfg.areBframes) (by omega) hFk2]
          exact mono_le hmono _ q (by omega)

theorem run_inv (cfg : Cfg) (fs : Nat → Frame) (hd0 : cfg.areBframes ≠ 0)
    (hd15 : cfg.areBframes ≤ 15)
    (hmono : ∀ i j, i < j → (fs i).start < (fs j).start)
    (hnn : 0 ≤ (fs 0).start) :
    ∀ (evs : List Ev) (F E : Nat) (pv : PV) (outs : List Buf),
      ValidFrom cfg.areBframes fs F E evs →
      Inv cfg.areBframes fs F E pv outs →
      ∃ F2 E2, Inv cfg.areBframes fs F2 E2
        (evs.foldl (step cfg) (pv, outs)).1
        (evs.foldl (step cfg) (pv, outs)).2 := by
  intro evs
  induction evs with
  | nil => intro F E pv outs _ hinv; exact ⟨F, E, hinv⟩
  | cons e rest ih =>
      intro F E pv outs hvalid hinv
      cases e with
      | submit f =>
          obtain ⟨hf, hsub, hrest⟩ := hvalid
          rw [List.foldl_cons, step_submit]
          exact ih (F + 1) E (Encode_submit cfg pv f).1 outs hrest
            (Inv_submit cfg fs F E pv outs f hd0 hf hsub hinv)
      | emit seq key =>
          obtain ⟨hEF, hEseq, hseq0, hseqF, hrest⟩ := hvalid
          rw [List.foldl_cons, step_emit]
          exact ih F (E + 1) (resolve_packet cfg pv seq key).1
            (outs ++ (resolve_packet cfg pv seq key).2) hrest
            (Inv_emit cfg fs F E pv outs seq key hd0 hd15 hmono hnn
              hEF hEseq hseq0 hseqF hinv)

/-- Configuration for the C1 counterexample: reorder depth 1. -/
def cfgC1 : Cfg := ⟨1, false, AV_NOPTS_VALUE⟩

/-- The C1 counterexample events: two frames with strictly increasing but
negative start timestamps (-10 then -8), then the encoder emits frame 0's
packet in order (a trace any reorder depth permits). -/
def evsC1 : List Ev :=
  [Ev.submit ⟨-10, -9, 0⟩, Ev.submit ⟨-8, -7, 0⟩, Ev.emit 0 false]

/-- C1 counterexample: the claim quantifies over *any* strictly increasing
start timestamps, but with starts -10, -8 and depth 1 the released packet
for frame 0 gets `renderOffset = start(0) - dts_delay = -10 - (-8) = -2`,
which is greater than its `start = -10`: `render_offset ≤ start` fails. -/
theorem C1_counterexample :
    ((run cfgC1 evsC1).2.all fun b => decide (b.renderOffset ≤ b.start))
      = false := by decide

/-- C1 (amended): for every depth-valid encoder trace (`ValidFrom`) over
frames with strictly increasing and nonnegative start timestamps, and for
every reorder depth `d ≤ 15` (so that the in-flight window always fits the
32-slot registry), every packet released to the caller satisfies
`renderOffset ≤ start`.  The nonnegativity of the first start is the
hypothesis the counterexample forces; the trace-validity hypotheses make
explicit what "the encoder has reorder depth `d`" means. -/
theorem C1_amended (cfg : Cfg) (evs : List Ev) (fs : Nat → Frame)
    (hd15 : cfg.areBframes ≤ 15)
    (hmono : ∀ i j, i < j → (fs i).start < (fs j).start)
    (hnn : 0 ≤ (fs 0).start)
    (hvalid : ValidFrom cfg.areBframes fs 0 0 evs) :
    ∀ b ∈ (run cfg evs).2, b.renderOffset ≤ b.start := by
  by_cases hd0 : cfg.areBframes = 0
  · intro b hb
    have h := foldl_zero cfg hd0 evs (pv0, [])
    dsimp only at h
    rw [run] at hb
    rcases h.2.2.2 b hb with hmem | hro
    · exact absurd hmem (List.not_mem_nil b)
    · rw [hro]
  · obtain ⟨F2, E2, hInv⟩ := run_inv cfg fs hd0 hd15 hmono hnn evs 0 0
      pv0 [] hvalid (Inv_init cfg.areBframes fs)
    rw [run]
    exact hInv.outsOK

/-- The frame sequence for the C1 witness: starts 0, 10, 20, … -/
def fsC1 : Nat → Frame := fun n => ⟨10 * (n : Int), 10 * (n : Int) + 10, 0⟩

/-- A depth-1-valid trace over `fsC1` for the C1 witness. -/
def evsC1w : List Ev :=
  [Ev.submit (fsC1 0), Ev.submit (fsC1 1), Ev.emit 0 true,
   Ev.submit (fsC1 2), Ev.emit 1 false]

theorem C1_witness :
    ((run ⟨1, false, AV_NOPTS_VALUE⟩ evsC1w).2.all
      fun b => decide (b.renderOffset ≤ b.start)) = true := by
  refine List.all_eq_true.mpr fun b hb => decide_eq_true ?_
  refine C1_amended ⟨1, false, AV_NOPTS_VALUE⟩ evsC1w fsC1 (by decide)
    ?_ (by norm_num [fsC1]) ?_ b hb
  · intro i j hij
    simp only [fsC1]
    omega
  · norm_num [ValidFrom, evsC1w]

end EncAvcodec
